import Mathlib

/-!
Verification of the `bimultimap` package: a bidirectional multimap keeping a
forward index (key → list of values) and an inverse index (value → list of
keys).  The Go maps are embedded as association lists with unique keys;
iteration order of a Go map is unspecified, so the model fixes insertion
order, which is irrelevant to the membership-level properties proved here.
The mutex discipline has no sequential effect and is not modelled.
-/

set_option linter.unusedSectionVars false

namespace bimultimap

/-- Association-list lookup: the model of reading `m[k]` together with its
`found` flag (`none` = key absent). -/
def lookupA {α β : Type} [DecidableEq α] : List (α × β) → α → Option β
  | [], _ => none
  | x :: xs, a => if x.1 = a then some x.2 else lookupA xs a

/-- Association-list update: the model of the assignment `m[k] = b`
(replaces the entry if the key is present, otherwise appends it). -/
def setA {α β : Type} [DecidableEq α] : List (α × β) → α → β → List (α × β)
  | [], a, b => [(a, b)]
  | x :: xs, a, b => if x.1 = a then (a, b) :: xs else x :: setA xs a b

/-- Association-list removal: the model of `delete(m, k)`. -/
def delA {α β : Type} [DecidableEq α] (l : List (α × β)) (a : α) : List (α × β) :=
  l.filter (fun x => decide (x.1 ≠ a))

/-- The state of a `BiMultiMap[K, V]`: the `forward` map from keys to value
slices and the `inverse` map from values to key slices. -/
structure BiMultiMap (K V : Type) where
  forward : List (K × List V)
  inverse : List (V × List K)
deriving DecidableEq

variable {K V : Type} [DecidableEq K] [DecidableEq V]

/-- `New` creates a new, empty biMultiMap. -/
def New : BiMultiMap K V := ⟨[], []⟩

/-- `LookupKey` gets the values associated with a key, or an empty slice if
the key does not exist. -/
def LookupKey (m : BiMultiMap K V) (key : K) : List V :=
  match lookupA m.forward key with
  | none => []
  | some values => values

/-- `LookupValue` gets the keys associated with a value, or an empty slice
if the value does not exist. -/
def LookupValue (m : BiMultiMap K V) (value : V) : List K :=
  match lookupA m.inverse value with
  | none => []
  | some keys => keys

/-- `deleteItem` deletes an element from a slice if it exists
(`slices.DeleteFunc` with predicate `item == it`). -/
def deleteItem {T : Type} [DecidableEq T] (slice : List T) (item : T) : List T :=
  slice.filter (fun it => decide (¬ (item = it)))

/-- `Add` adds a key/value pair; if the value is already present for the key
it exits early, otherwise it appends to both indices. -/
def Add (m : BiMultiMap K V) (key : K) (value : V) : BiMultiMap K V :=
  let values := (lookupA m.forward key).getD []
  if value ∈ values then m
  else
    let forward := setA m.forward key (values ++ [value])
    let keys := (lookupA m.inverse value).getD []
    let inverse := setA m.inverse value (keys ++ [key])
    ⟨forward, inverse⟩

/-- `KeyExists` returns true if a key exists in the map. -/
def KeyExists (m : BiMultiMap K V) (key : K) : Bool :=
  (lookupA m.forward key).isSome

/-- `ValueExists` returns true if a value exists in the map. -/
def ValueExists (m : BiMultiMap K V) (value : V) : Bool :=
  (lookupA m.inverse value).isSome

/-- `DeleteKey` deletes a key from the map, removes the key from the inverse
entry of each of its values, and returns the associated values. -/
def DeleteKey (m : BiMultiMap K V) (key : K) : List V × BiMultiMap K V :=
  match lookupA m.forward key with
  | none => ([], m)
  | some values =>
    let forward := delA m.forward key
    let inverse := values.foldl
      (fun inv v => setA inv v (deleteItem ((lookupA inv v).getD []) key)) m.inverse
    (values, ⟨forward, inverse⟩)

/-- `DeleteValue` deletes a value from the map, removes the value from the
forward entry of each of its keys, and returns the associated keys. -/
def DeleteValue (m : BiMultiMap K V) (value : V) : List K × BiMultiMap K V :=
  match lookupA m.inverse value with
  | none => ([], m)
  | some keys =>
    let inverse := delA m.inverse value
    let forward := keys.foldl
      (fun fwd k => setA fwd k (deleteItem ((lookupA fwd k).getD []) value)) m.forward
    (keys, ⟨forward, inverse⟩)

/-- `DeleteKeyValue` deletes a single key/value pair when both the key and
the value exist somewhere in the map, purging either entry if it becomes
empty. -/
def DeleteKeyValue (m : BiMultiMap K V) (key : K) (value : V) : BiMultiMap K V :=
  if (lookupA m.inverse value).isSome && (lookupA m.forward key).isSome then
    let fwd1 := setA m.forward key (deleteItem ((lookupA m.forward key).getD []) value)
    let forward := if ((lookupA fwd1 key).getD []).length = 0 then delA fwd1 key else fwd1
    let inv1 := setA m.inverse value (deleteItem ((lookupA m.inverse value).getD []) key)
    let inverse := if ((lookupA inv1 value).getD []).length = 0 then delA inv1 value else inv1
    ⟨forward, inverse⟩
  else m

/-- `Keys` returns all of the map's keys. -/
def Keys (m : BiMultiMap K V) : List K := m.forward.map Prod.fst

/-- `Values` returns all of the map's values. -/
def Values (m : BiMultiMap K V) : List V := m.inverse.map Prod.fst

/-- The body of `Merge`: add every key/value pair of `m` to `res` by
iterating `res.Add(k, v)` over `m.Keys()` and `m.LookupKey(k)`. -/
def addPairs (res : BiMultiMap K V) (m : BiMultiMap K V) : BiMultiMap K V :=
  (Keys m).foldl (fun r k => (LookupKey m k).foldl (fun r v => Add r k v) r) res

/-- `Merge` returns a new BiMultiMap consisting of all the key/value pairs
in this one and all key/value pairs in the other one. -/
def Merge (m other : BiMultiMap K V) : BiMultiMap K V :=
  addPairs (addPairs New m) other

/-- `Clear` clears all entries in the BiMultiMap. -/
def Clear (_ : BiMultiMap K V) : BiMultiMap K V := New

/-- The states reachable from the empty structure through the public
mutating API. -/
inductive Reachable : BiMultiMap K V → Prop where
  | empty : Reachable New
  | add (m : BiMultiMap K V) (k : K) (v : V) : Reachable m → Reachable (Add m k v)
  | delKey (m : BiMultiMap K V) (k : K) : Reachable m → Reachable (DeleteKey m k).2
  | delValue (m : BiMultiMap K V) (v : V) : Reachable m → Reachable (DeleteValue m v).2
  | delKeyValue (m : BiMultiMap K V) (k : K) (v : V) :
      Reachable m → Reachable (DeleteKeyValue m k v)
  | clear (m : BiMultiMap K V) : Reachable m → Reachable (Clear m)
  | merge (a b : BiMultiMap K V) : Reachable a → Reachable b → Reachable (Merge a b)

/-- The symmetry invariant: the two indices mirror each other. -/
def Symm (m : BiMultiMap K V) : Prop :=
  ∀ (k : K) (v : V), k ∈ LookupValue m v ↔ v ∈ LookupKey m k

/-- The no-duplicates invariant: each index's lists hold distinct elements. -/
def NoDups (m : BiMultiMap K V) : Prop :=
  (∀ k : K, (LookupKey m k).Nodup) ∧ (∀ v : V, (LookupValue m v).Nodup)

/-- The full data-structure invariant. -/
def Invariant (m : BiMultiMap K V) : Prop := Symm m ∧ NoDups m

/-! ### Association-list lemmas -/

theorem lookupA_setA {α β : Type} [DecidableEq α] (l : List (α × β)) (a a' : α) (b : β) :
    lookupA (setA l a b) a' = if a' = a then some b else lookupA l a' := by
  induction l with
  | nil =>
    by_cases h : a' = a
    · simp [setA, lookupA, h]
    · simp [setA, lookupA, h, Ne.symm h]
  | cons x xs ih =>
    by_cases hx : x.1 = a
    · by_cases h : a' = a
      · simp [setA, lookupA, hx, h]
      · have hx' : ¬ x.1 = a' := by rw [hx]; exact fun hc => h hc.symm
        simp [setA, lookupA, hx, h, hx', Ne.symm h]
    · by_cases hx' : x.1 = a'
      · have h : ¬ a' = a := fun hc => hx (hx' ▸ hc)
        simp [setA, lookupA, hx, hx', h]
      · simp [setA, lookupA, hx, hx', ih]

theorem lookupA_delA {α β : Type} [DecidableEq α] (l : List (α × β)) (a a' : α) :
    lookupA (delA l a) a' = if a' = a then none else lookupA l a' := by
  induction l with
  | nil => by_cases h : a' = a <;> simp [delA, lookupA, h]
  | cons x xs ih =>
    simp only [delA] at ih ⊢
    rw [List.filter_cons]
    by_cases hx : x.1 = a
    · rw [if_neg (by simp [hx]), ih]
      by_cases h : a' = a
      · rw [if_pos h, if_pos h]
      · have hx' : ¬ x.1 = a' := by rw [hx]; exact fun hc => h hc.symm
        rw [if_neg h, if_neg h]
        simp only [lookupA, if_neg hx']
    · rw [if_pos (by simp [hx])]
      simp only [lookupA]
      by_cases hx' : x.1 = a'
      · have h : ¬ a' = a := fun hc => hx (hx' ▸ hc)
        rw [if_pos hx', if_neg h, if_pos hx']
      · rw [if_neg hx', ih, if_neg hx']

theorem lookupA_eq_none_iff {α β : Type} [DecidableEq α] (l : List (α × β)) (a : α) :
    lookupA l a = none ↔ a ∉ l.map Prod.fst := by
  induction l with
  | nil => simp [lookupA]
  | cons x xs ih =>
    by_cases hx : x.1 = a
    · simp [lookupA, hx]
    · simp [lookupA, hx, ih, Ne.symm hx]

/-! ### `deleteItem` lemmas -/

theorem mem_deleteItem {T : Type} [DecidableEq T] (s : List T) (item x : T) :
    x ∈ deleteItem s item ↔ x ∈ s ∧ x ≠ item := by
  simp [deleteItem, List.mem_filter, ne_comm]

theorem not_mem_deleteItem {T : Type} [DecidableEq T] (s : List T) (item : T) :
    item ∉ deleteItem s item := by
  simp [mem_deleteItem]

theorem deleteItem_of_not_mem {T : Type} [DecidableEq T] {s : List T} {item : T}
    (h : item ∉ s) : deleteItem s item = s := by
  apply List.filter_eq_self.mpr
  intro a ha
  simp only [decide_eq_true_eq]
  exact fun hc => h (hc ▸ ha)

theorem deleteItem_idem {T : Type} [DecidableEq T] (s : List T) (item : T) :
    deleteItem (deleteItem s item) item = deleteItem s item := by
  simp only [deleteItem]
  apply List.filter_eq_self.mpr
  intro a ha
  exact (List.mem_filter.mp ha).2

theorem nodup_deleteItem {T : Type} [DecidableEq T] {s : List T} (h : s.Nodup) (item : T) :
    (deleteItem s item).Nodup :=
  List.Nodup.filter _ h

/-! ### Lookup and `Add` lemmas -/

theorem LookupKey_def (m : BiMultiMap K V) (k : K) :
    LookupKey m k = (lookupA m.forward k).getD [] := by
  cases h : lookupA m.forward k <;> simp [LookupKey, h]

theorem LookupValue_def (m : BiMultiMap K V) (v : V) :
    LookupValue m v = (lookupA m.inverse v).getD [] := by
  cases h : lookupA m.inverse v <;> simp [LookupValue, h]

theorem LookupKey_New (k : K) : LookupKey (New : BiMultiMap K V) k = [] := rfl

theorem LookupValue_New (v : V) : LookupValue (New : BiMultiMap K V) v = [] := rfl

theorem KeyExists_of_mem {m : BiMultiMap K V} {k : K} {v : V} (h : v ∈ LookupKey m k) :
    KeyExists m k = true := by
  cases hl : lookupA m.forward k
  · rw [LookupKey_def, hl] at h
    simp at h
  · simp [KeyExists, hl]

theorem ValueExists_of_mem {m : BiMultiMap K V} {k : K} {v : V} (h : k ∈ LookupValue m v) :
    ValueExists m v = true := by
  cases hl : lookupA m.inverse v
  · rw [LookupValue_def, hl] at h
    simp at h
  · simp [ValueExists, hl]

theorem LookupKey_eq_nil_of_not_KeyExists {m : BiMultiMap K V} {k : K}
    (h : KeyExists m k = false) : LookupKey m k = [] := by
  cases hl : lookupA m.forward k
  · simp [LookupKey, hl]
  · simp [KeyExists, hl] at h

theorem LookupValue_eq_nil_of_not_ValueExists {m : BiMultiMap K V} {v : V}
    (h : ValueExists m v = false) : LookupValue m v = [] := by
  cases hl : lookupA m.inverse v
  · simp [LookupValue, hl]
  · simp [ValueExists, hl] at h

theorem Add_of_mem {m : BiMultiMap K V} {k : K} {v : V} (h : v ∈ LookupKey m k) :
    Add m k v = m := by
  rw [LookupKey_def] at h
  simp [Add, h]

theorem Add_of_not_mem {m : BiMultiMap K V} {k : K} {v : V} (h : v ∉ LookupKey m k) :
    Add m k v = ⟨setA m.forward k (LookupKey m k ++ [v]),
                 setA m.inverse v (LookupValue m v ++ [k])⟩ := by
  have h' : ¬ v ∈ (lookupA m.forward k).getD [] := by rw [← LookupKey_def]; exact h
  simp [Add, h', LookupKey_def, LookupValue_def]

theorem LookupKey_Add (m : BiMultiMap K V) (k : K) (v : V) (k' : K) :
    LookupKey (Add m k v) k' =
      if v ∈ LookupKey m k then LookupKey m k'
      else if k' = k then LookupKey m k ++ [v] else LookupKey m k' := by
  by_cases h : v ∈ LookupKey m k
  · rw [Add_of_mem h, if_pos h]
  · rw [if_neg h, Add_of_not_mem h, LookupKey_def]
    simp only [lookupA_setA]
    by_cases hk : k' = k
    · simp [hk]
    · simp [hk, LookupKey_def]

theorem LookupValue_Add (m : BiMultiMap K V) (k : K) (v : V) (v' : V) :
    LookupValue (Add m k v) v' =
      if v ∈ LookupKey m k then LookupValue m v'
      else if v' = v then LookupValue m v ++ [k] else LookupValue m v' := by
  by_cases h : v ∈ LookupKey m k
  · rw [Add_of_mem h, if_pos h]
  · rw [if_neg h, Add_of_not_mem h, LookupValue_def]
    simp only [lookupA_setA]
    by_cases hv : v' = v
    · simp [hv]
    · simp [hv, LookupValue_def]

theorem mem_LookupKey_Add (m : BiMultiMap K V) (k : K) (v : V) (k' : K) (v' : V) :
    v' ∈ LookupKey (Add m k v) k' ↔ v' ∈ LookupKey m k' ∨ (k' = k ∧ v' = v) := by
  rw [LookupKey_Add]
  by_cases h : v ∈ LookupKey m k
  · rw [if_pos h]
    constructor
    · exact Or.inl
    · rintro (hm | ⟨rfl, rfl⟩)
      · exact hm
      · exact h
  · rw [if_neg h]
    by_cases hk : k' = k
    · subst hk
      simp [List.mem_append]
    · simp [hk]

/-! ### The mirror-side update loop of `DeleteKey` / `DeleteValue` -/

theorem lookupA_foldl_setDel {α β : Type} [DecidableEq α] [DecidableEq β]
    (xs : List α) (l : List (α × List β)) (b : β) (a' : α) :
    lookupA (xs.foldl (fun acc a => setA acc a (deleteItem ((lookupA acc a).getD []) b)) l) a' =
      if a' ∈ xs then some (deleteItem ((lookupA l a').getD []) b) else lookupA l a' := by
  induction xs generalizing l with
  | nil => simp
  | cons a xs ih =>
    rw [List.foldl_cons, ih]
    simp only [lookupA_setA]
    by_cases ha : a' = a
    · subst ha
      by_cases hx : a' ∈ xs
      · simp [hx, deleteItem_idem]
      · simp [hx]
    · simp only [if_neg ha]
      by_cases hx : a' ∈ xs
      · simp [hx, ha]
      · simp [hx, ha]

/-! ### `DeleteKey` lemmas -/

theorem DeleteKey_fst (m : BiMultiMap K V) (k : K) :
    (DeleteKey m k).1 = LookupKey m k := by
  cases h : lookupA m.forward k <;> simp [DeleteKey, LookupKey, h]

theorem LookupKey_DeleteKey (m : BiMultiMap K V) (k k' : K) :
    LookupKey (DeleteKey m k).2 k' = if k' = k then [] else LookupKey m k' := by
  cases h : lookupA m.forward k with
  | none =>
    by_cases hk : k' = k
    · simp [DeleteKey, h, hk, LookupKey]
    · simp [DeleteKey, h, hk]
  | some values =>
    simp only [DeleteKey, h]
    rw [LookupKey_def]
    simp only [lookupA_delA]
    by_cases hk : k' = k
    · simp [hk]
    · simp [hk, LookupKey_def]

theorem LookupValue_DeleteKey (m : BiMultiMap K V) (k : K) (v' : V) :
    LookupValue (DeleteKey m k).2 v' =
      if v' ∈ LookupKey m k then deleteItem (LookupValue m v') k else LookupValue m v' := by
  cases h : lookupA m.forward k with
  | none =>
    have hnil : LookupKey m k = [] := by simp [LookupKey, h]
    simp [DeleteKey, h, hnil]
  | some values =>
    have hL : LookupKey m k = values := by simp [LookupKey, h]
    simp only [DeleteKey, h]
    rw [LookupValue_def]
    simp only [lookupA_foldl_setDel, hL]
    by_cases hm : v' ∈ values
    · simp [hm, LookupValue_def]
    · simp [hm, LookupValue_def]

theorem KeyExists_DeleteKey (m : BiMultiMap K V) (k k' : K) :
    KeyExists (DeleteKey m k).2 k' = if k' = k then false else KeyExists m k' := by
  cases h : lookupA m.forward k with
  | none =>
    by_cases hk : k' = k
    · simp [DeleteKey, h, hk, KeyExists]
    · simp [DeleteKey, h, hk]
  | some values =>
    simp only [DeleteKey, KeyExists, h]
    simp only [lookupA_delA]
    by_cases hk : k' = k
    · simp [hk]
    · simp [hk, KeyExists]

theorem ValueExists_DeleteKey (m : BiMultiMap K V) (k : K) (v' : V) :
    ValueExists (DeleteKey m k).2 v' =
      if v' ∈ LookupKey m k then true else ValueExists m v' := by
  cases h : lookupA m.forward k with
  | none =>
    have hnil : LookupKey m k = [] := by simp [LookupKey, h]
    simp [DeleteKey, h, hnil]
  | some values =>
    have hL : LookupKey m k = values := by simp [LookupKey, h]
    simp only [DeleteKey, ValueExists, h]
    simp only [lookupA_foldl_setDel, hL]
    by_cases hm : v' ∈ values
    · simp [hm]
    · simp [hm, ValueExists]

/-! ### `DeleteValue` lemmas (mirror images of the `DeleteKey` ones) -/

theorem DeleteValue_fst (m : BiMultiMap K V) (v : V) :
    (DeleteValue m v).1 = LookupValue m v := by
  cases h : lookupA m.inverse v <;> simp [DeleteValue, LookupValue, h]

theorem LookupValue_DeleteValue (m : BiMultiMap K V) (v v' : V) :
    LookupValue (DeleteValue m v).2 v' = if v' = v then [] else LookupValue m v' := by
  cases h : lookupA m.inverse v with
  | none =>
    by_cases hv : v' = v
    · simp [DeleteValue, h, hv, LookupValue]
    · simp [DeleteValue, h, hv]
  | some keys =>
    simp only [DeleteValue, h]
    rw [LookupValue_def]
    simp only [lookupA_delA]
    by_cases hv : v' = v
    · simp [hv]
    · simp [hv, LookupValue_def]

theorem LookupKey_DeleteValue (m : BiMultiMap K V) (v : V) (k' : K) :
    LookupKey (DeleteValue m v).2 k' =
      if k' ∈ LookupValue m v then deleteItem (LookupKey m k') v else LookupKey m k' := by
  cases h : lookupA m.inverse v with
  | none =>
    have hnil : LookupValue m v = [] := by simp [LookupValue, h]
    simp [DeleteValue, h, hnil]
  | some keys =>
    have hL : LookupValue m v = keys := by simp [LookupValue, h]
    simp only [DeleteValue, h]
    rw [LookupKey_def]
    simp only [lookupA_foldl_setDel, hL]
    by_cases hm : k' ∈ keys
    · simp [hm, LookupKey_def]
    · simp [hm, LookupKey_def]

theorem ValueExists_DeleteValue (m : BiMultiMap K V) (v v' : V) :
    ValueExists (DeleteValue m v).2 v' = if v' = v then false else ValueExists m v' := by
  cases h : lookupA m.inverse v with
  | none =>
    by_cases hv : v' = v
    · simp [DeleteValue, h, hv, ValueExists]
    · simp [DeleteValue, h, hv]
  | some keys =>
    simp only [DeleteValue, ValueExists, h]
    simp only [lookupA_delA]
    by_cases hv : v' = v
    · simp [hv]
    · simp [hv, ValueExists]

theorem KeyExists_DeleteValue (m : BiMultiMap K V) (v : V) (k' : K) :
    KeyExists (DeleteValue m v).2 k' =
      if k' ∈ LookupValue m v then true else KeyExists m k' := by
  cases h : lookupA m.inverse v with
  | none =>
    have hnil : LookupValue m v = [] := by simp [LookupValue, h]
    simp [DeleteValue, h, hnil]
  | some keys =>
    have hL : LookupValue m v = keys := by simp [LookupValue, h]
    simp only [DeleteValue, KeyExists, h]
    simp only [lookupA_foldl_setDel, hL]
    by_cases hm : k' ∈ keys
    · simp [hm]
    · simp [hm, KeyExists]

/-! ### `DeleteKeyValue` lemmas -/

theorem DeleteKeyValue_of_absent (m : BiMultiMap K V) (k : K) (v : V)
    (h : KeyExists m k = false ∨ ValueExists m v = false) :
    DeleteKeyValue m k v = m := by
  have hc : ((lookupA m.inverse v).isSome && (lookupA m.forward k).isSome) = false := by
    rcases h with h | h
    · simp only [KeyExists] at h
      simp [h]
    · simp only [ValueExists] at h
      simp [h]
  simp [DeleteKeyValue, hc]

theorem DeleteKeyValue_found (m : BiMultiMap K V) (k : K) (v : V)
    (values : List V) (keys : List K)
    (hfv : lookupA m.forward k = some values) (hiv : lookupA m.inverse v = some keys) :
    DeleteKeyValue m k v =
      ⟨(if (deleteItem values v).length = 0
          then delA (setA m.forward k (deleteItem values v)) k
          else setA m.forward k (deleteItem values v)),
       (if (deleteItem keys k).length = 0
          then delA (setA m.inverse v (deleteItem keys k)) v
          else setA m.inverse v (deleteItem keys k))⟩ := by
  simp [DeleteKeyValue, hfv, hiv, lookupA_setA]

theorem LookupKey_DeleteKeyValue (m : BiMultiMap K V) (k : K) (v : V) (k' : K)
    (hk : KeyExists m k = true) (hv : ValueExists m v = true) :
    LookupKey (DeleteKeyValue m k v) k' =
      if k' = k then deleteItem (LookupKey m k) v else LookupKey m k' := by
  obtain ⟨values, hfv⟩ := Option.isSome_iff_exists.mp (by simpa [KeyExists] using hk)
  obtain ⟨keys, hiv⟩ := Option.isSome_iff_exists.mp (by simpa [ValueExists] using hv)
  have hL : LookupKey m k = values := by simp [LookupKey, hfv]
  rw [DeleteKeyValue_found m k v values keys hfv hiv, LookupKey_def]
  by_cases hlen : (deleteItem values v).length = 0
  · have hnil : deleteItem values v = [] := List.length_eq_zero.mp hlen
    simp only [if_pos hlen, lookupA_delA, lookupA_setA]
    by_cases hk' : k' = k
    · simp [hk', hL, hnil]
    · simp [hk', LookupKey_def]
  · simp only [if_neg hlen, lookupA_setA]
    by_cases hk' : k' = k
    · simp [hk', hL]
    · simp [hk', LookupKey_def]

theorem LookupValue_DeleteKeyValue (m : BiMultiMap K V) (k : K) (v : V) (v' : V)
    (hk : KeyExists m k = true) (hv : ValueExists m v = true) :
    LookupValue (DeleteKeyValue m k v) v' =
      if v' = v then deleteItem (LookupValue m v) k else LookupValue m v' := by
  obtain ⟨values, hfv⟩ := Option.isSome_iff_exists.mp (by simpa [KeyExists] using hk)
  obtain ⟨keys, hiv⟩ := Option.isSome_iff_exists.mp (by simpa [ValueExists] using hv)
  have hL : LookupValue m v = keys := by simp [LookupValue, hiv]
  rw [DeleteKeyValue_found m k v values keys hfv hiv, LookupValue_def]
  by_cases hlen : (deleteItem keys k).length = 0
  · have hnil : deleteItem keys k = [] := List.length_eq_zero.mp hlen
    simp only [if_pos hlen, lookupA_delA, lookupA_setA]
    by_cases hv' : v' = v
    · simp [hv', hL, hnil]
    · simp [hv', LookupValue_def]
  · simp only [if_neg hlen, lookupA_setA]
    by_cases hv' : v' = v
    · simp [hv', hL]
    · simp [hv', LookupValue_def]

theorem KeyExists_DeleteKeyValue_self (m : BiMultiMap K V) (k : K) (v : V)
    (hk : KeyExists m k = true) (hv : ValueExists m v = true) :
    KeyExists (DeleteKeyValue m k v) k = true ↔ deleteItem (LookupKey m k) v ≠ [] := by
  obtain ⟨values, hfv⟩ := Option.isSome_iff_exists.mp (by simpa [KeyExists] using hk)
  obtain ⟨keys, hiv⟩ := Option.isSome_iff_exists.mp (by simpa [ValueExists] using hv)
  have hL : LookupKey m k = values := by simp [LookupKey, hfv]
  rw [DeleteKeyValue_found m k v values keys hfv hiv]
  simp only [KeyExists, hL]
  by_cases hlen : (deleteItem values v).length = 0
  · have hnil : deleteItem values v = [] := List.length_eq_zero.mp hlen
    simp [if_pos hlen, lookupA_delA, hnil]
  · have hne : deleteItem values v ≠ [] := fun hc => hlen (by simp [hc])
    simp [if_neg hlen, lookupA_setA, hne]

theorem KeyExists_DeleteKeyValue_ne (m : BiMultiMap K V) (k : K) (v : V) (k' : K)
    (hne : k' ≠ k) (hk : KeyExists m k = true) (hv : ValueExists m v = true) :
    KeyExists (DeleteKeyValue m k v) k' = KeyExists m k' := by
  obtain ⟨values, hfv⟩ := Option.isSome_iff_exists.mp (by simpa [KeyExists] using hk)
  obtain ⟨keys, hiv⟩ := Option.isSome_iff_exists.mp (by simpa [ValueExists] using hv)
  rw [DeleteKeyValue_found m k v values keys hfv hiv]
  simp only [KeyExists]
  by_cases hlen : deleteItem values v = []
  · simp [hlen, lookupA_delA, lookupA_setA, hne]
  · simp [hlen, lookupA_setA, hne]

theorem ValueExists_DeleteKeyValue_self (m : BiMultiMap K V) (k : K) (v : V)
    (hk : KeyExists m k = true) (hv : ValueExists m v = true) :
    ValueExists (DeleteKeyValue m k v) v = true ↔ deleteItem (LookupValue m v) k ≠ [] := by
  obtain ⟨values, hfv⟩ := Option.isSome_iff_exists.mp (by simpa [KeyExists] using hk)
  obtain ⟨keys, hiv⟩ := Option.isSome_iff_exists.mp (by simpa [ValueExists] using hv)
  have hL : LookupValue m v = keys := by simp [LookupValue, hiv]
  rw [DeleteKeyValue_found m k v values keys hfv hiv]
  simp only [ValueExists, hL]
  by_cases hlen : (deleteItem keys k).length = 0
  · have hnil : deleteItem keys k = [] := List.length_eq_zero.mp hlen
    simp [if_pos hlen, lookupA_delA, hnil]
  · have hne : deleteItem keys k ≠ [] := fun hc => hlen (by simp [hc])
    simp [if_neg hlen, lookupA_setA, hne]

theorem ValueExists_DeleteKeyValue_ne (m : BiMultiMap K V) (k : K) (v : V) (v' : V)
    (hne : v' ≠ v) (hk : KeyExists m k = true) (hv : ValueExists m v = true) :
    ValueExists (DeleteKeyValue m k v) v' = ValueExists m v' := by
  obtain ⟨values, hfv⟩ := Option.isSome_iff_exists.mp (by simpa [KeyExists] using hk)
  obtain ⟨keys, hiv⟩ := Option.isSome_iff_exists.mp (by simpa [ValueExists] using hv)
  rw [DeleteKeyValue_found m k v values keys hfv hiv]
  simp only [ValueExists]
  by_cases hlen : deleteItem keys k = []
  · simp [hlen, lookupA_delA, lookupA_setA, hne]
  · simp [hlen, lookupA_setA, hne]

/-! ### `Keys` and `Merge` membership lemmas -/

theorem mem_Keys_iff (m : BiMultiMap K V) (k : K) :
    k ∈ Keys m ↔ KeyExists m k = true := by
  cases hl : lookupA m.forward k with
  | none =>
    have hn := (lookupA_eq_none_iff m.forward k).mp hl
    simp [Keys, KeyExists, hl, hn]
  | some values =>
    have hm : k ∈ m.forward.map Prod.fst := by
      by_contra hc
      rw [← lookupA_eq_none_iff] at hc
      rw [hc] at hl
      cases hl
    simp [Keys, KeyExists, hl, hm]

theorem mem_Keys_of_mem_LookupKey {m : BiMultiMap K V} {k : K} {v : V}
    (h : v ∈ LookupKey m k) : k ∈ Keys m :=
  (mem_Keys_iff m k).mpr (KeyExists_of_mem h)

theorem mem_LookupKey_foldl_add (res : BiMultiMap K V) (k0 : K) (vs : List V)
    (k : K) (v : V) :
    v ∈ LookupKey (vs.foldl (fun r v0 => Add r k0 v0) res) k ↔
      v ∈ LookupKey res k ∨ (k = k0 ∧ v ∈ vs) := by
  induction vs generalizing res with
  | nil => simp
  | cons v0 tl ih =>
    rw [List.foldl_cons, ih, mem_LookupKey_Add]
    simp only [List.mem_cons]
    tauto

theorem mem_LookupKey_foldl_keys (res m : BiMultiMap K V) (ks : List K)
    (k : K) (v : V) :
    v ∈ LookupKey
        (ks.foldl (fun r k0 => (LookupKey m k0).foldl (fun r v0 => Add r k0 v0) r) res) k ↔
      v ∈ LookupKey res k ∨ (k ∈ ks ∧ v ∈ LookupKey m k) := by
  induction ks generalizing res with
  | nil => simp
  | cons k0 tl ih =>
    rw [List.foldl_cons, ih, mem_LookupKey_foldl_add]
    by_cases hk : k = k0
    · subst hk
      simp only [List.mem_cons]
      tauto
    · simp only [List.mem_cons, hk]
      tauto

theorem mem_LookupKey_addPairs (res m : BiMultiMap K V) (k : K) (v : V) :
    v ∈ LookupKey (addPairs res m) k ↔ v ∈ LookupKey res k ∨ v ∈ LookupKey m k := by
  rw [addPairs, mem_LookupKey_foldl_keys]
  constructor
  · rintro (h | ⟨_, h⟩)
    · exact Or.inl h
    · exact Or.inr h
  · rintro (h | h)
    · exact Or.inl h
    · exact Or.inr ⟨mem_Keys_of_mem_LookupKey h, h⟩

theorem mem_LookupKey_Merge (a b : BiMultiMap K V) (k : K) (v : V) :
    v ∈ LookupKey (Merge a b) k ↔ v ∈ LookupKey a k ∨ v ∈ LookupKey b k := by
  rw [Merge, mem_LookupKey_addPairs, mem_LookupKey_addPairs]
  simp [LookupKey_New]

/-! ### Preservation of the invariant by every operation -/

theorem invariant_New : Invariant (New : BiMultiMap K V) := by
  refine ⟨fun k v => ?_, fun k => ?_, fun v => ?_⟩ <;>
    simp [LookupKey_New, LookupValue_New]

theorem invariant_Add {m : BiMultiMap K V} {k : K} {v : V} (h : Invariant m) :
    Invariant (Add m k v) := by
  obtain ⟨hs, hnk, hnv⟩ := h
  by_cases hmem : v ∈ LookupKey m k
  · rw [Add_of_mem hmem]
    exact ⟨hs, hnk, hnv⟩
  · refine ⟨fun k' v' => ?_, fun k' => ?_, fun v' => ?_⟩
    · rw [LookupKey_Add, LookupValue_Add, if_neg hmem, if_neg hmem]
      by_cases hk' : k' = k <;> by_cases hv' : v' = v
      · subst hk'; subst hv'
        simp [List.mem_append]
      · subst hk'
        simp [hv', List.mem_append, hs k' v']
      · subst hv'
        simp [hk', List.mem_append, hs k' v']
      · simp [hk', hv', hs k' v']
    · rw [LookupKey_Add, if_neg hmem]
      by_cases hk' : k' = k
      · subst hk'
        simp [List.nodup_append, hnk k', hmem]
      · simp [hk', hnk k']
    · rw [LookupValue_Add, if_neg hmem]
      by_cases hv' : v' = v
      · subst hv'
        have hkk : k ∉ LookupValue m v' := fun hc => hmem ((hs k v').mp hc)
        simp [List.nodup_append, hnv v', hkk]
      · simp [hv', hnv v']

theorem invariant_DeleteKey {m : BiMultiMap K V} {k : K} (h : Invariant m) :
    Invariant (DeleteKey m k).2 := by
  obtain ⟨hs, hnk, hnv⟩ := h
  refine ⟨fun k' v' => ?_, fun k' => ?_, fun v' => ?_⟩
  · rw [LookupKey_DeleteKey, LookupValue_DeleteKey]
    by_cases hk' : k' = k
    · subst hk'
      simp only [if_pos rfl]
      by_cases hm : v' ∈ LookupKey m k'
      · simp [hm, mem_deleteItem]
      · simp [hm, hs k' v']
    · rw [if_neg hk']
      by_cases hm : v' ∈ LookupKey m k
      · rw [if_pos hm]
        simp [mem_deleteItem, hk', hs k' v']
      · rw [if_neg hm]
        exact hs k' v'
  · rw [LookupKey_DeleteKey]
    by_cases hk' : k' = k
    · simp [hk']
    · simp [hk', hnk k']
  · rw [LookupValue_DeleteKey]
    by_cases hm : v' ∈ LookupKey m k
    · simp [hm, nodup_deleteItem (hnv v')]
    · simp [hm, hnv v']

theorem invariant_DeleteValue {m : BiMultiMap K V} {v : V} (h : Invariant m) :
    Invariant (DeleteValue m v).2 := by
  obtain ⟨hs, hnk, hnv⟩ := h
  refine ⟨fun k' v' => ?_, fun k' => ?_, fun v' => ?_⟩
  · rw [LookupKey_DeleteValue, LookupValue_DeleteValue]
    by_cases hv' : v' = v
    · subst hv'
      simp only [if_pos rfl]
      by_cases hm : k' ∈ LookupValue m v'
      · simp [hm, mem_deleteItem]
      · have hvk : v' ∉ LookupKey m k' := fun hc => hm ((hs k' v').mpr hc)
        simp [hm, hvk]
    · rw [if_neg hv']
      by_cases hm : k' ∈ LookupValue m v
      · rw [if_pos hm]
        simp [mem_deleteItem, hv', hs k' v']
      · rw [if_neg hm]
        exact hs k' v'
  · rw [LookupKey_DeleteValue]
    by_cases hm : k' ∈ LookupValue m v
    · simp [hm, nodup_deleteItem (hnk k')]
    · simp [hm, hnk k']
  · rw [LookupValue_DeleteValue]
    by_cases hv' : v' = v
    · simp [hv']
    · simp [hv', hnv v']

theorem invariant_DeleteKeyValue {m : BiMultiMap K V} {k : K} {v : V} (h : Invariant m) :
    Invariant (DeleteKeyValue m k v) := by
  by_cases hk : KeyExists m k = true
  · by_cases hv : ValueExists m v = true
    · obtain ⟨hs, hnk, hnv⟩ := h
      refine ⟨fun k' v' => ?_, fun k' => ?_, fun v' => ?_⟩
      · rw [LookupKey_DeleteKeyValue m k v k' hk hv,
          LookupValue_DeleteKeyValue m k v v' hk hv]
        by_cases hk' : k' = k <;> by_cases hv' : v' = v
        · subst hk'; subst hv'
          simp [mem_deleteItem]
        · subst hk'
          simp [hv', mem_deleteItem, hs k' v']
        · subst hv'
          simp [hk', mem_deleteItem, hs k' v']
        · simp [hk', hv', hs k' v']
      · rw [LookupKey_DeleteKeyValue m k v k' hk hv]
        by_cases hk' : k' = k
        · simp [hk', nodup_deleteItem (hnk k)]
        · simp [hk', hnk k']
      · rw [LookupValue_DeleteKeyValue m k v v' hk hv]
        by_cases hv' : v' = v
        · simp [hv', nodup_deleteItem (hnv v)]
        · simp [hv', hnv v']
    · rw [DeleteKeyValue_of_absent m k v (Or.inr (Bool.not_eq_true _ ▸ hv))]
      exact h
  · rw [DeleteKeyValue_of_absent m k v (Or.inl (Bool.not_eq_true _ ▸ hk))]
    exact h

theorem invariant_foldl_add (k0 : K) (vs : List V) {res : BiMultiMap K V}
    (h : Invariant res) : Invariant (vs.foldl (fun r v0 => Add r k0 v0) res) := by
  induction vs generalizing res with
  | nil => simpa
  | cons v0 tl ih =>
    rw [List.foldl_cons]
    exact ih (invariant_Add h)

theorem invariant_addPairs (m : BiMultiMap K V) {res : BiMultiMap K V}
    (h : Invariant res) : Invariant (addPairs res m) := by
  rw [addPairs]
  generalize Keys m = ks
  induction ks generalizing res with
  | nil => simpa
  | cons k0 tl ih =>
    rw [List.foldl_cons]
    exact ih (invariant_foldl_add k0 _ h)

theorem invariant_Merge (a b : BiMultiMap K V) : Invariant (Merge a b) :=
  invariant_addPairs b (invariant_addPairs a invariant_New)

theorem reachable_invariant {m : BiMultiMap K V} (h : Reachable m) : Invariant m := by
  induction h with
  | empty => exact invariant_New
  | add m k v _ ih => exact invariant_Add ih
  | delKey m k _ ih => exact invariant_DeleteKey ih
  | delValue m v _ ih => exact invariant_DeleteValue ih
  | delKeyValue m k v _ ih => exact invariant_DeleteKeyValue ih
  | clear m _ _ => exact invariant_New
  | merge a b _ _ _ _ => exact invariant_Merge a b

theorem deleteItem_singleton {T : Type} [DecidableEq T] (x : T) :
    deleteItem [x] x = [] := by
  simp [deleteItem]

/-! ### The claims -/

/-- C1: In every state reachable from the empty structure by any sequence of
Add, DeleteKey, DeleteValue, DeleteKeyValue, Clear and Merge operations, for
every key k and value v, k is a member of LookupValue(v) if and only if v is
a member of LookupKey(k). -/
theorem symmetry_of_reachable {m : BiMultiMap K V} (h : Reachable m) (k : K) (v : V) :
    k ∈ LookupValue m v ↔ v ∈ LookupKey m k :=
  (reachable_invariant h).1 k v

/-- Witness for C1 on the concrete state `Add New 1 2`. -/
theorem symmetry_of_reachable_witness :
    (1 : Nat) ∈ LookupValue (Add (New : BiMultiMap Nat Nat) 1 2) 2 ↔
      (2 : Nat) ∈ LookupKey (Add (New : BiMultiMap Nat Nat) 1 2) 1 :=
  symmetry_of_reachable (Reachable.add New 1 2 Reachable.empty) 1 2

/-- C2: for every reachable state and every key k and value v, after
Add(k, v) the pair is visible from both sides and both KeyExists(k) and
ValueExists(v) return true. -/
theorem add_establishes_membership {m : BiMultiMap K V} (h : Reachable m) (k : K) (v : V) :
    v ∈ LookupKey (Add m k v) k ∧ k ∈ LookupValue (Add m k v) v ∧
      KeyExists (Add m k v) k = true ∧ ValueExists (Add m k v) v = true := by
  obtain ⟨hs, _, _⟩ := reachable_invariant h
  have h1 : v ∈ LookupKey (Add m k v) k := by
    rw [mem_LookupKey_Add]
    exact Or.inr ⟨rfl, rfl⟩
  have h2 : k ∈ LookupValue (Add m k v) v := by
    rw [LookupValue_Add]
    by_cases hmem : v ∈ LookupKey m k
    · rw [if_pos hmem]
      exact (hs k v).mpr hmem
    · rw [if_neg hmem, if_pos rfl]
      simp
  exact ⟨h1, h2, KeyExists_of_mem h1, ValueExists_of_mem h2⟩

/-- Witness for C2 on the concrete state `New` with k = 1, v = 2. -/
theorem add_establishes_membership_witness :
    (2 : Nat) ∈ LookupKey (Add (New : BiMultiMap Nat Nat) 1 2) 1 ∧
      (1 : Nat) ∈ LookupValue (Add (New : BiMultiMap Nat Nat) 1 2) 2 ∧
      KeyExists (Add (New : BiMultiMap Nat Nat) 1 2) 1 = true ∧
      ValueExists (Add (New : BiMultiMap Nat Nat) 1 2) 2 = true :=
  add_establishes_membership Reachable.empty 1 2

/-- C3: DeleteKey(k) returns exactly the values previously associated with k
(empty if k was absent), afterwards LookupKey(k) is empty, and k has been
removed from the inverse list of every value it had been associated with;
DeleteValue is symmetric. -/
theorem deleteKey_deleteValue_spec (m : BiMultiMap K V) (k : K) (v : V) :
    (DeleteKey m k).1 = LookupKey m k ∧
      LookupKey (DeleteKey m k).2 k = [] ∧
      (∀ v' ∈ (DeleteKey m k).1, k ∉ LookupValue (DeleteKey m k).2 v') ∧
      (DeleteValue m v).1 = LookupValue m v ∧
      LookupValue (DeleteValue m v).2 v = [] ∧
      (∀ k' ∈ (DeleteValue m v).1, v ∉ LookupKey (DeleteValue m v).2 k') := by
  refine ⟨DeleteKey_fst m k, ?_, ?_, DeleteValue_fst m v, ?_, ?_⟩
  · rw [LookupKey_DeleteKey]
    simp
  · intro v' hv'
    rw [DeleteKey_fst] at hv'
    rw [LookupValue_DeleteKey, if_pos hv']
    exact not_mem_deleteItem _ _
  · rw [LookupValue_DeleteValue]
    simp
  · intro k' hk'
    rw [DeleteValue_fst] at hk'
    rw [LookupKey_DeleteValue, if_pos hk']
    exact not_mem_deleteItem _ _

/-- Witness for C3 on the concrete state `Add New 1 2`. -/
theorem deleteKey_deleteValue_spec_witness :
    (DeleteKey (Add (New : BiMultiMap Nat Nat) 1 2) 1).1 =
        LookupKey (Add (New : BiMultiMap Nat Nat) 1 2) 1 ∧
      (1 : Nat) ∉ LookupValue (DeleteKey (Add (New : BiMultiMap Nat Nat) 1 2) 1).2 2 := by
  have h := deleteKey_deleteValue_spec (Add (New : BiMultiMap Nat Nat) 1 2) 1 2
  exact ⟨h.1, h.2.2.1 2 (by decide)⟩

/-- C4: DeleteKeyValue(k, v) removes at most the single pair (k, v) — every
other pair involving k or v is still present afterwards — and it is a no-op
when k is absent from the forward index or v is absent from the inverse
index. -/
theorem deleteKeyValue_removes_only_pair (m : BiMultiMap K V) (k : K) (v : V) :
    (∀ (k' : K) (v' : V), ¬ (k' = k ∧ v' = v) →
      ((v' ∈ LookupKey (DeleteKeyValue m k v) k' ↔ v' ∈ LookupKey m k') ∧
       (k' ∈ LookupValue (DeleteKeyValue m k v) v' ↔ k' ∈ LookupValue m v'))) ∧
    ((KeyExists m k = false ∨ ValueExists m v = false) → DeleteKeyValue m k v = m) := by
  constructor
  · intro k' v' hne
    by_cases hk : KeyExists m k = true
    · by_cases hv : ValueExists m v = true
      · rw [LookupKey_DeleteKeyValue m k v k' hk hv,
          LookupValue_DeleteKeyValue m k v v' hk hv]
        constructor
        · by_cases hk' : k' = k
          · subst hk'
            have hv' : ¬ v' = v := fun hc => hne ⟨rfl, hc⟩
            simp [mem_deleteItem, hv']
          · simp [hk']
        · by_cases hv' : v' = v
          · subst hv'
            have hk' : ¬ k' = k := fun hc => hne ⟨hc, rfl⟩
            simp [mem_deleteItem, hk']
          · simp [hv']
      · rw [DeleteKeyValue_of_absent m k v (Or.inr (Bool.not_eq_true _ ▸ hv))]
        exact ⟨Iff.rfl, Iff.rfl⟩
    · rw [DeleteKeyValue_of_absent m k v (Or.inl (Bool.not_eq_true _ ▸ hk))]
      exact ⟨Iff.rfl, Iff.rfl⟩
  · exact DeleteKeyValue_of_absent m k v

/-- Witness for C4: deleting the pair (1, 2) leaves the pair (1, 3) in
place on the concrete state `Add (Add New 1 2) 1 3`. -/
theorem deleteKeyValue_removes_only_pair_witness :
    (3 : Nat) ∈ LookupKey (DeleteKeyValue (Add (Add (New : BiMultiMap Nat Nat) 1 2) 1 3) 1 2) 1 ↔
      (3 : Nat) ∈ LookupKey (Add (Add (New : BiMultiMap Nat Nat) 1 2) 1 3) 1 := by
  have h := deleteKeyValue_removes_only_pair (Add (Add (New : BiMultiMap Nat Nat) 1 2) 1 3) 1 2
  exact (h.1 1 3 (by decide)).1

/-- C5: Merge returns a structure whose (key, value) pairs are exactly the
union of the two inputs' pairs, deduplicated (no value list of the result
holds a duplicate); the inputs are read, never written, by construction. -/
theorem merge_is_union (a b : BiMultiMap K V) :
    (∀ (k : K) (v : V),
        v ∈ LookupKey (Merge a b) k ↔ v ∈ LookupKey a k ∨ v ∈ LookupKey b k) ∧
      (∀ k : K, (LookupKey (Merge a b) k).Nodup) :=
  ⟨mem_LookupKey_Merge a b, fun k => (invariant_Merge a b).2.1 k⟩

/-- C6: calling Add(k, v) twice yields exactly the same state as calling it
once, and LookupKey(k) contains no duplicate occurrence of v afterwards. -/
theorem add_idempotent {m : BiMultiMap K V} (h : Reachable m) (k : K) (v : V) :
    Add (Add m k v) k v = Add m k v ∧
      List.count v (LookupKey (Add m k v) k) ≤ 1 := by
  constructor
  · have hmem : v ∈ LookupKey (Add m k v) k := by
      rw [mem_LookupKey_Add]
      exact Or.inr ⟨rfl, rfl⟩
    exact Add_of_mem hmem
  · have hnodup : (LookupKey (Add m k v) k).Nodup :=
      (invariant_Add (reachable_invariant h)).2.1 k
    exact List.nodup_iff_count_le_one.mp hnodup v

/-- Witness for C6 on the concrete state `New` with k = 1, v = 2. -/
theorem add_idempotent_witness :
    Add (Add (New : BiMultiMap Nat Nat) 1 2) 1 2 = Add (New : BiMultiMap Nat Nat) 1 2 ∧
      List.count 2 (LookupKey (Add (New : BiMultiMap Nat Nat) 1 2) 1) ≤ 1 :=
  add_idempotent Reachable.empty 1 2

/-- C7: DeleteKey and DeleteValue leave behind empty-list entries on the
mirror side, while DeleteKeyValue purges entries that become empty. -/
theorem purge_policy_asymmetry {m : BiMultiMap K V} (h : Reachable m) (k : K) (v : V) :
    (LookupValue m v = [k] →
        ValueExists (DeleteKey m k).2 v = true ∧ LookupValue (DeleteKey m k).2 v = []) ∧
      (LookupKey m k = [v] →
        KeyExists (DeleteValue m v).2 k = true ∧ LookupKey (DeleteValue m v).2 k = []) ∧
      (LookupKey m k = [v] → KeyExists (DeleteKeyValue m k v) k = false) ∧
      (LookupValue m v = [k] → ValueExists (DeleteKeyValue m k v) v = false) := by
  obtain ⟨hs, hnk, hnv⟩ := reachable_invariant h
  refine ⟨fun hLv => ?_, fun hLk => ?_, fun hLk => ?_, fun hLv => ?_⟩
  · have hkm : k ∈ LookupValue m v := by rw [hLv]; simp
    have hvm : v ∈ LookupKey m k := (hs k v).mp hkm
    constructor
    · rw [ValueExists_DeleteKey, if_pos hvm]
    · rw [LookupValue_DeleteKey, if_pos hvm, hLv, deleteItem_singleton]
  · have hvm : v ∈ LookupKey m k := by rw [hLk]; simp
    have hkm : k ∈ LookupValue m v := (hs k v).mpr hvm
    constructor
    · rw [KeyExists_DeleteValue, if_pos hkm]
    · rw [LookupKey_DeleteValue, if_pos hkm, hLk, deleteItem_singleton]
  · have hvm : v ∈ LookupKey m k := by rw [hLk]; simp
    have hk : KeyExists m k = true := KeyExists_of_mem hvm
    have hv : ValueExists m v = true := ValueExists_of_mem ((hs k v).mpr hvm)
    have hiff := KeyExists_DeleteKeyValue_self m k v hk hv
    rw [hLk, deleteItem_singleton] at hiff
    cases hb : KeyExists (DeleteKeyValue m k v) k
    · rfl
    · exact absurd rfl (hiff.mp hb)
  · have hkm : k ∈ LookupValue m v := by rw [hLv]; simp
    have hv : ValueExists m v = true := ValueExists_of_mem hkm
    have hk : KeyExists m k = true := KeyExists_of_mem ((hs k v).mp hkm)
    have hiff := ValueExists_DeleteKeyValue_self m k v hk hv
    rw [hLv, deleteItem_singleton] at hiff
    cases hb : ValueExists (DeleteKeyValue m k v) v
    · rfl
    · exact absurd rfl (hiff.mp hb)

/-- Witness for C7 on the concrete state `Add New 1 2`, where value 2 is
associated only with key 1 and key 1 only with value 2. -/
theorem purge_policy_asymmetry_witness :
    (ValueExists (DeleteKey (Add (New : BiMultiMap Nat Nat) 1 2) 1).2 2 = true ∧
        LookupValue (DeleteKey (Add (New : BiMultiMap Nat Nat) 1 2) 1).2 2 = []) ∧
      KeyExists (DeleteKeyValue (Add (New : BiMultiMap Nat Nat) 1 2) 1 2) 1 = false := by
  have h := purge_policy_asymmetry (Reachable.add New 1 2 Reachable.empty) 1 2
  exact ⟨h.1 (by decide), h.2.2.1 (by decide)⟩

/-- C8: every operation is total; lookups and deletes on an absent key or
value return an empty sequence, and such deletes leave the state
unchanged. -/
theorem absent_lookups_and_deletes (m : BiMultiMap K V) (k : K) (v : V) :
    (KeyExists m k = false → LookupKey m k = []) ∧
      (ValueExists m v = false → LookupValue m v = []) ∧
      (KeyExists m k = false → (DeleteKey m k).1 = [] ∧ (DeleteKey m k).2 = m) ∧
      (ValueExists m v = false → (DeleteValue m v).1 = [] ∧ (DeleteValue m v).2 = m) := by
  refine ⟨fun h => LookupKey_eq_nil_of_not_KeyExists h,
    fun h => LookupValue_eq_nil_of_not_ValueExists h, fun h => ?_, fun h => ?_⟩
  · have hl : lookupA m.forward k = none := by
      cases hl : lookupA m.forward k
      · rfl
      · simp [KeyExists, hl] at h
    simp [DeleteKey, hl]
  · have hl : lookupA m.inverse v = none := by
      cases hl : lookupA m.inverse v
      · rfl
      · simp [ValueExists, hl] at h
    simp [DeleteValue, hl]

/-- Witness for C8 on the empty structure with k = 1, v = 2. -/
theorem absent_lookups_and_deletes_witness :
    LookupKey (New : BiMultiMap Nat Nat) 1 = [] ∧
      (DeleteKey (New : BiMultiMap Nat Nat) 1).2 = New := by
  have h := absent_lookups_and_deletes (New : BiMultiMap Nat Nat) 1 2
  exact ⟨h.1 (by decide), (h.2.2.1 (by decide)).2⟩

/-- C9: in every reachable state, no associated list of either index holds a
duplicate element. -/
theorem reachable_no_duplicates {m : BiMultiMap K V} (h : Reachable m) :
    (∀ k : K, (LookupKey m k).Nodup) ∧ (∀ v : V, (LookupValue m v).Nodup) :=
  (reachable_invariant h).2

/-- Witness for C9 on the concrete state `Add New 1 2`. -/
theorem reachable_no_duplicates_witness :
    (LookupKey (Add (New : BiMultiMap Nat Nat) 1 2) 1).Nodup :=
  (reachable_no_duplicates (Reachable.add New 1 2 Reachable.empty)).1 1

/-- C10: when both k and v exist but the pair (k, v) is absent,
DeleteKeyValue changes no lookup result; the only possible change is the
purge of an already-empty entry for k or v, which flips KeyExists(k) or
ValueExists(v) to false. -/
theorem deleteKeyValue_frame {m : BiMultiMap K V} (h : Reachable m) (k : K) (v : V)
    (hk : KeyExists m k = true) (hv : ValueExists m v = true)
    (hnm : v ∉ LookupKey m k) :
    (∀ x : K, LookupKey (DeleteKeyValue m k v) x = LookupKey m x) ∧
      (∀ y : V, LookupValue (DeleteKeyValue m k v) y = LookupValue m y) ∧
      (∀ x : K, x ≠ k → KeyExists (DeleteKeyValue m k v) x = KeyExists m x) ∧
      (∀ y : V, y ≠ v → ValueExists (DeleteKeyValue m k v) y = ValueExists m y) ∧
      (KeyExists (DeleteKeyValue m k v) k = true ↔ LookupKey m k ≠ []) ∧
      (ValueExists (DeleteKeyValue m k v) v = true ↔ LookupValue m v ≠ []) := by
  obtain ⟨hs, hnk, hnv⟩ := reachable_invariant h
  have hkm : k ∉ LookupValue m v := fun hc => hnm ((hs k v).mp hc)
  have hdv : deleteItem (LookupKey m k) v = LookupKey m k := deleteItem_of_not_mem hnm
  have hdk : deleteItem (LookupValue m v) k = LookupValue m v := deleteItem_of_not_mem hkm
  refine ⟨fun x => ?_, fun y => ?_,
    fun x hx => KeyExists_DeleteKeyValue_ne m k v x hx hk hv,
    fun y hy => ValueExists_DeleteKeyValue_ne m k v y hy hk hv, ?_, ?_⟩
  · rw [LookupKey_DeleteKeyValue m k v x hk hv]
    by_cases hx : x = k
    · subst hx
      rw [if_pos rfl, hdv]
    · rw [if_neg hx]
  · rw [LookupValue_DeleteKeyValue m k v y hk hv]
    by_cases hy : y = v
    · subst hy
      rw [if_pos rfl, hdk]
    · rw [if_neg hy]
  · rw [KeyExists_DeleteKeyValue_self m k v hk hv, hdv]
  · rw [ValueExists_DeleteKeyValue_self m k v hk hv, hdk]

/-- Witness for C10 on the concrete state `Add (Add New 1 10) 2 20`, where
key 1 and value 20 both exist but the pair (1, 20) is absent. -/
theorem deleteKeyValue_frame_witness :
    LookupKey (DeleteKeyValue (Add (Add (New : BiMultiMap Nat Nat) 1 10) 2 20) 1 20) 1 =
      LookupKey (Add (Add (New : BiMultiMap Nat Nat) 1 10) 2 20) 1 := by
  have h := deleteKeyValue_frame
    (Reachable.add (Add New 1 10) 2 20 (Reachable.add New 1 10 Reachable.empty)) 1 20
    (by decide) (by decide) (by decide)
  exact h.1 1

end bimultimap
